import Mathlib

/-!
Verification of the riemann-mpi repository: midpoint Riemann sums computed
sequentially (riemann_suma_secuencial.c), with OpenMP (openmp_riemann_suma.c)
and with MPI (mpi_riemann_suma.c).

Embedding conventions:
* C `double` values are modelled as exact rationals (ℚ): arithmetic is exact,
  so statements about floating-point results hold "under exact arithmetic";
  statements about identical operation sequences are expressed as equalities
  between the loop functions themselves.
* C `long` / `int` values are modelled as ℤ.  C integer division truncates
  toward zero; every division in the modelled code has non-negative operands
  (n > 0, size ≥ 1), where truncating division coincides with Lean's `/` on ℤ.
* The integrand `funcion` (sin in the source) is an injected parameter
  `funcion : ℚ → ℚ`, following the spec's treatment of the integrand as a
  pluggable pure function; no claim depends on its concrete value.
* `main`'s behaviour after argument parsing is modelled as a function from the
  parsed argument count and values to `Except MainError ℚ`: `.error` means a
  message on stderr and a nonzero exit with no result printed, `.ok v` means
  the "Resultado" line is printed with value `v`.
-/

/-- Mirrors `IntegracionParams` of mpi_riemann_suma.c:
`{ double a; double b; long n; }`. -/
structure IntegracionParams where
  a : ℚ
  b : ℚ
  n : ℤ
deriving DecidableEq

namespace Mpi

/-- The `for (long i = inicio; i < fin; i++) { x = a + (i + 0.5) * delta_x;
suma += funcion(x) * delta_x; }` loop of `calcular_suma_riemann` in
mpi_riemann_suma.c, with the integrand injected. -/
def suma_loop (funcion : ℚ → ℚ) (a delta_x : ℚ) (fin : ℤ) (i : ℤ) (suma : ℚ) : ℚ :=
  if i < fin then
    suma_loop funcion a delta_x fin (i + 1) (suma + funcion (a + ((i : ℚ) + 0.5) * delta_x) * delta_x)
  else
    suma
termination_by (fin - i).toNat
decreasing_by omega

/-- `calcular_suma_riemann` of mpi_riemann_suma.c: midpoint-rule partial sum
over the index range `[inicio, fin)`; `delta_x = (b - a) / n` computed once. -/
def calcular_suma_riemann (funcion : ℚ → ℚ) (params : IntegracionParams)
    (inicio fin : ℤ) : ℚ :=
  let delta_x : ℚ := (params.b - params.a) / (params.n : ℚ)
  suma_loop funcion params.a delta_x fin inicio 0

/-- `long subintervalos_por_proceso = params.n / size;` of mpi_riemann_suma.c
(main).  C division truncates toward zero; here `params.n > 0` and `size ≥ 1`,
so it agrees with ℤ division. -/
def subintervalos_por_proceso (n size : ℤ) : ℤ := n / size

/-- `long inicio = rank * subintervalos_por_proceso;` of mpi_riemann_suma.c. -/
def inicio (n size rank : ℤ) : ℤ := rank * subintervalos_por_proceso n size

/-- `long fin = (rank == size - 1) ? params.n : inicio + subintervalos_por_proceso;`
of mpi_riemann_suma.c. -/
def fin (n size rank : ℤ) : ℤ :=
  if rank = size - 1 then n else inicio n size rank + subintervalos_por_proceso n size

/-- The local sum computed by one MPI process (`suma_local` in main). -/
def suma_local (funcion : ℚ → ℚ) (params : IntegracionParams) (size rank : ℤ) : ℚ :=
  calcular_suma_riemann funcion params (inicio params.n size rank) (fin params.n size rank)

/-- `MPI_Reduce(&suma_local, &suma_total, 1, MPI_DOUBLE, MPI_SUM, 0, ...)`:
the per-rank partial sums added in rank order into the root's total. -/
def suma_total (funcion : ℚ → ℚ) (params : IntegracionParams) (size : ℤ) : ℚ :=
  (List.range size.toNat).foldl
    (fun acc (r : ℕ) => acc + suma_local funcion params size (r : ℤ)) 0

end Mpi

namespace Secuencial

/-- The `for (long i = 0; i < n; i++)` accumulation loop of
`calcular_suma_riemann` in riemann_suma_secuencial.c (body identical in shape
to the MPI variant's loop). -/
def suma_loop (funcion : ℚ → ℚ) (a delta_x : ℚ) (n : ℤ) (i : ℤ) (suma : ℚ) : ℚ :=
  if i < n then
    suma_loop funcion a delta_x n (i + 1) (suma + funcion (a + ((i : ℚ) + 0.5) * delta_x) * delta_x)
  else
    suma
termination_by (n - i).toNat
decreasing_by omega

/-- `calcular_suma_riemann(double a, double b, long n)` of
riemann_suma_secuencial.c: full-range midpoint Riemann sum. -/
def calcular_suma_riemann (funcion : ℚ → ℚ) (a b : ℚ) (n : ℤ) : ℚ :=
  let delta_x : ℚ := (b - a) / (n : ℚ)
  suma_loop funcion a delta_x n 0 0

end Secuencial

/-- Error classes of the drivers' input validation (spec §7): wrong CLI
argument count, or non-positive subinterval / worker count. -/
inductive MainError where
  | argumentCount : MainError
  | invalidInput : MainError
deriving DecidableEq

namespace Secuencial

/-- `main` of riemann_suma_secuencial.c after CLI parsing: `argc` is the
argument count, `a b n` the parsed values.  `argc != 4` prints usage and
returns EXIT_FAILURE; `n <= 0` prints an error and returns EXIT_FAILURE;
otherwise the Riemann sum is computed and printed. -/
def main (funcion : ℚ → ℚ) (argc : ℤ) (a b : ℚ) (n : ℤ) : Except MainError ℚ :=
  if argc ≠ 4 then .error .argumentCount
  else if n ≤ 0 then .error .invalidInput
  else .ok (calcular_suma_riemann funcion a b n)

end Secuencial

namespace Openmp

/-- `calcular_suma_riemann_openmp` of openmp_riemann_suma.c: the
`#pragma omp parallel for reduction(+:suma)` loop over `[0, n)`, modelled as
its exact-arithmetic value (the reduction of the per-iteration terms, which
under exact arithmetic is independent of the scheduling). -/
def calcular_suma_riemann_openmp (funcion : ℚ → ℚ) (a b : ℚ) (n : ℤ)
    (num_hilos : ℤ) : ℚ :=
  let _ := num_hilos
  let delta_x : ℚ := (b - a) / (n : ℚ)
  Secuencial.suma_loop funcion a delta_x n 0 0

/-- `main` of openmp_riemann_suma.c after CLI parsing: `argc != 5` prints
usage and returns EXIT_FAILURE; `n <= 0 || num_hilos <= 0` prints an error
and returns EXIT_FAILURE; otherwise the sum is computed and printed. -/
def main (funcion : ℚ → ℚ) (argc : ℤ) (a b : ℚ) (n : ℤ) (num_hilos : ℤ) :
    Except MainError ℚ :=
  if argc ≠ 5 then .error .argumentCount
  else if n ≤ 0 ∨ num_hilos ≤ 0 then .error .invalidInput
  else .ok (calcular_suma_riemann_openmp funcion a b n num_hilos)

end Openmp

/-! ### Specification-side vocabulary used to state the theorems -/

/-- The ascending list of indices `i, i+1, ..., j-1` (empty if `j ≤ i`). -/
def indices (i j : ℤ) : List ℤ :=
  (List.range (j - i).toNat).map (fun k : ℕ => i + (k : ℤ))

/-- One midpoint-rule term: `funcion (a + (i + 0.5) * delta_x) * delta_x`. -/
def termino (funcion : ℚ → ℚ) (a delta_x : ℚ) (i : ℤ) : ℚ :=
  funcion (a + ((i : ℚ) + 0.5) * delta_x) * delta_x

/-- Exact sum of the midpoint terms over a list of indices. -/
def sumaTerminos (funcion : ℚ → ℚ) (a delta_x : ℚ) (l : List ℤ) : ℚ :=
  (l.map (termino funcion a delta_x)).sum

/-- The partition property of spec §3/§8: every produced range lies inside
`[0, n]` with ordered endpoints, and every index of `[0, n)` belongs to
exactly one worker's range. -/
def esParticion (n size : ℤ) : Prop :=
  (∀ r : ℤ, 0 ≤ r → r < size →
      0 ≤ Mpi.inicio n size r ∧ Mpi.inicio n size r ≤ Mpi.fin n size r ∧
        Mpi.fin n size r ≤ n) ∧
  (∀ i : ℤ, 0 ≤ i → i < n →
      ∃! r : ℤ, (0 ≤ r ∧ r < size) ∧ Mpi.inicio n size r ≤ i ∧ i < Mpi.fin n size r)

/-! ### Basic lemmas about `indices` and the loops -/

theorem indices_eq_nil {i j : ℤ} (h : j ≤ i) : indices i j = [] := by
  unfold indices
  have : (j - i).toNat = 0 := by omega
  simp [this]

theorem indices_cons {i j : ℤ} (h : i < j) :
    indices i j = i :: indices (i + 1) j := by
  unfold indices
  have h1 : (j - i).toNat = (j - (i + 1)).toNat + 1 := by omega
  rw [h1, List.range_succ_eq_map]
  simp only [List.map_cons, List.map_map]
  congr 1
  · simp
  · apply List.map_congr_left
    intro k _
    simp only [Function.comp_apply]
    push_cast
    ring

theorem indices_append {i j k : ℤ} (hij : i ≤ j) (hjk : j ≤ k) :
    indices i j ++ indices j k = indices i k := by
  have hd : ∀ m : ℕ, ∀ i j k : ℤ, i ≤ j → j ≤ k → (j - i).toNat = m →
      indices i j ++ indices j k = indices i k := by
    intro m
    induction m with
    | zero =>
      intro i j k hij hjk hm
      have hji : j = i := by omega
      subst hji
      rw [indices_eq_nil le_rfl]
      simp
    | succ m ih =>
      intro i j k hij hjk hm
      have hij' : i < j := by omega
      rw [indices_cons hij', indices_cons (lt_of_lt_of_le hij' hjk)]
      simp only [List.cons_append]
      rw [ih (i + 1) j k (by omega) hjk (by omega)]
  exact hd (j - i).toNat i j k hij hjk rfl

theorem sumaTerminos_append (funcion : ℚ → ℚ) (a delta_x : ℚ) (l1 l2 : List ℤ) :
    sumaTerminos funcion a delta_x (l1 ++ l2) =
      sumaTerminos funcion a delta_x l1 + sumaTerminos funcion a delta_x l2 := by
  unfold sumaTerminos
  rw [List.map_append, List.sum_append]

/-- The MPI loop equals its initial accumulator plus the exact sum of the
terms over the ascending index list. -/
theorem Mpi.suma_loop_eq (funcion : ℚ → ℚ) (a delta_x : ℚ) (fin : ℤ) :
    ∀ (i : ℤ) (suma : ℚ),
      Mpi.suma_loop funcion a delta_x fin i suma =
        suma + sumaTerminos funcion a delta_x (indices i fin) := by
  have hd : ∀ m : ℕ, ∀ (i : ℤ) (suma : ℚ), (fin - i).toNat = m →
      Mpi.suma_loop funcion a delta_x fin i suma =
        suma + sumaTerminos funcion a delta_x (indices i fin) := by
    intro m
    induction m with
    | zero =>
      intro i suma hm
      rw [Mpi.suma_loop]
      have hif : ¬ i < fin := by omega
      rw [if_neg hif, indices_eq_nil (by omega)]
      simp [sumaTerminos]
    | succ m ih =>
      intro i suma hm
      rw [Mpi.suma_loop]
      have hif : i < fin := by omega
      rw [if_pos hif, ih (i + 1) _ (by omega), indices_cons hif]
      unfold sumaTerminos
      simp only [List.map_cons, List.sum_cons]
      unfold termino
      ring
  intro i suma
  exact hd (fin - i).toNat i suma rfl

/-- The sequential loop is the same function as the MPI loop: at every
intermediate index and accumulator state the two produce equal values
(they perform the identical sequence of operations). -/
theorem Secuencial.suma_loop_eq_mpi (funcion : ℚ → ℚ) (a delta_x : ℚ) (n : ℤ) :
    ∀ (i : ℤ) (suma : ℚ),
      Secuencial.suma_loop funcion a delta_x n i suma =
        Mpi.suma_loop funcion a delta_x n i suma := by
  have hd : ∀ m : ℕ, ∀ (i : ℤ) (suma : ℚ), (n - i).toNat = m →
      Secuencial.suma_loop funcion a delta_x n i suma =
        Mpi.suma_loop funcion a delta_x n i suma := by
    intro m
    induction m with
    | zero =>
      intro i suma hm
      rw [Secuencial.suma_loop, Mpi.suma_loop]
      have hif : ¬ i < n := by omega
      rw [if_neg hif, if_neg hif]
    | succ m ih =>
      intro i suma hm
      rw [Secuencial.suma_loop, Mpi.suma_loop]
      have hif : i < n := by omega
      rw [if_pos hif, if_pos hif, ih (i + 1) _ (by omega)]
  intro i suma
  exact hd (n - i).toNat i suma rfl

/-- `calcular_suma_riemann` (MPI) as an exact sum over the index range. -/
theorem Mpi.calcular_suma_riemann_eq (funcion : ℚ → ℚ) (params : IntegracionParams)
    (inicio fin : ℤ) :
    Mpi.calcular_suma_riemann funcion params inicio fin =
      sumaTerminos funcion params.a ((params.b - params.a) / (params.n : ℚ))
        (indices inicio fin) := by
  unfold Mpi.calcular_suma_riemann
  rw [Mpi.suma_loop_eq]
  ring

/-! ### Lemmas about the partitioner -/

theorem Mpi.base_nonneg {n size : ℤ} (hn : 0 < n) (hw : 1 ≤ size) :
    0 ≤ Mpi.subintervalos_por_proceso n size :=
  Int.ediv_nonneg (le_of_lt hn) (by omega)

theorem Mpi.size_mul_base_le {n size : ℤ} (_hn : 0 < n) (hw : 1 ≤ size) :
    size * Mpi.subintervalos_por_proceso n size ≤ n := by
  unfold Mpi.subintervalos_por_proceso
  have h := Int.ediv_mul_le n (show (size : ℤ) ≠ 0 by omega)
  rw [mul_comm]
  exact h

theorem Mpi.rango_valido {n size : ℤ} (hn : 0 < n) (hw : 1 ≤ size)
    {rank : ℤ} (h0 : 0 ≤ rank) (hr : rank < size) :
    0 ≤ Mpi.inicio n size rank ∧ Mpi.inicio n size rank ≤ Mpi.fin n size rank ∧
      Mpi.fin n size rank ≤ n := by
  have hb0 : 0 ≤ n / size := Int.ediv_nonneg (le_of_lt hn) (by omega)
  have hsz : size * (n / size) ≤ n := Mpi.size_mul_base_le hn hw
  unfold Mpi.fin Mpi.inicio Mpi.subintervalos_por_proceso
  by_cases hlast : rank = size - 1
  · rw [if_pos hlast]
    subst hlast
    refine ⟨mul_nonneg (by omega) hb0, ?_, le_refl n⟩
    have h1 : (size - 1) * (n / size) ≤ size * (n / size) :=
      mul_le_mul_of_nonneg_right (by omega) hb0
    linarith
  · rw [if_neg hlast]
    refine ⟨mul_nonneg h0 hb0, by linarith, ?_⟩
    have h1 : (rank + 1) * (n / size) ≤ size * (n / size) :=
      mul_le_mul_of_nonneg_right (by omega) hb0
    linarith

theorem Mpi.fin_le_inicio {n size : ℤ} (hn : 0 < n) (hw : 1 ≤ size)
    {r1 r2 : ℤ} (_h1 : 0 ≤ r1) (h12 : r1 < r2) (h2 : r2 < size) :
    Mpi.fin n size r1 ≤ Mpi.inicio n size r2 := by
  have hb0 : 0 ≤ n / size := Int.ediv_nonneg (le_of_lt hn) (by omega)
  unfold Mpi.fin Mpi.inicio Mpi.subintervalos_por_proceso
  rw [if_neg (show ¬ r1 = size - 1 by omega)]
  have h3 : (r1 + 1) * (n / size) ≤ r2 * (n / size) :=
    mul_le_mul_of_nonneg_right (by omega) hb0
  linarith

theorem Mpi.cubre {n size : ℤ} (hn : 0 < n) (hw : 1 ≤ size)
    {i : ℤ} (h0 : 0 ≤ i) (hi : i < n) :
    ∃ r : ℤ, (0 ≤ r ∧ r < size) ∧ Mpi.inicio n size r ≤ i ∧ i < Mpi.fin n size r := by
  have hb0 : 0 ≤ n / size := Int.ediv_nonneg (le_of_lt hn) (by omega)
  by_cases hbz : n / size = 0
  · refine ⟨size - 1, ⟨by omega, by omega⟩, ?_, ?_⟩
    · unfold Mpi.inicio Mpi.subintervalos_por_proceso
      rw [hbz, mul_zero]
      exact h0
    · unfold Mpi.fin
      rw [if_pos rfl]
      exact hi
  · have hbpos : 0 < n / size := by omega
    set q := i / (n / size) with hq
    have hq0 : 0 ≤ q := Int.ediv_nonneg h0 hb0
    have hqb : q * (n / size) ≤ i := Int.ediv_mul_le i (by omega)
    rcases le_or_lt (size - 1) q with hcase | hcase
    · refine ⟨size - 1, ⟨by omega, by omega⟩, ?_, ?_⟩
      · unfold Mpi.inicio Mpi.subintervalos_por_proceso
        have h1 : (size - 1) * (n / size) ≤ q * (n / size) :=
          mul_le_mul_of_nonneg_right hcase hb0
        linarith
      · unfold Mpi.fin
        rw [if_pos rfl]
        exact hi
    · refine ⟨q, ⟨hq0, by omega⟩, ?_, ?_⟩
      · unfold Mpi.inicio Mpi.subintervalos_por_proceso
        exact hqb
      · unfold Mpi.fin Mpi.inicio Mpi.subintervalos_por_proceso
        rw [if_neg (show ¬ q = size - 1 by omega)]
        have h1 : n / size * (i / (n / size)) + i % (n / size) = i :=
          Int.ediv_add_emod i (n / size)
        rw [← hq] at h1
        have h2 : i % (n / size) < n / size := Int.emod_lt_of_pos i hbpos
        have h3 : n / size * q = q * (n / size) := mul_comm _ _
        linarith

theorem Mpi.esParticion_of {n size : ℤ} (hn : 0 < n) (hw : 1 ≤ size) :
    esParticion n size := by
  constructor
  · intro r h0 hr
    exact Mpi.rango_valido hn hw h0 hr
  · intro i h0 hi
    obtain ⟨r, hr, hlo, hhi⟩ := Mpi.cubre hn hw h0 hi
    refine ⟨r, ⟨hr, hlo, hhi⟩, ?_⟩
    rintro r2 ⟨⟨h20, h2s⟩, h2lo, h2hi⟩
    by_contra hne
    rcases lt_or_gt_of_ne hne with hlt | hgt
    · have hd := Mpi.fin_le_inicio hn hw h20 hlt hr.2
      linarith
    · have hd := Mpi.fin_le_inicio hn hw hr.1 hgt h2s
      linarith

/-! ### The rank-ordered reduction equals the full-range sum -/

theorem Secuencial.suma_completa_eq (funcion : ℚ → ℚ) (a b : ℚ) (n : ℤ) :
    Secuencial.calcular_suma_riemann funcion a b n =
      sumaTerminos funcion a ((b - a) / (n : ℚ)) (indices 0 n) := by
  unfold Secuencial.calcular_suma_riemann
  rw [Secuencial.suma_loop_eq_mpi, Mpi.suma_loop_eq]
  ring

theorem foldl_add_eq_sum (g : ℤ → ℚ) (l : List ℤ) :
    ∀ c : ℚ, l.foldl (fun s i => s + g i) c = c + (l.map g).sum := by
  induction l with
  | nil =>
    intro c
    simp
  | cons x xs ih =>
    intro c
    rw [List.foldl_cons, ih, List.map_cons, List.sum_cons]
    ring

theorem sumaTerminos_delta_zero (funcion : ℚ → ℚ) (a : ℚ) (l : List ℤ) :
    sumaTerminos funcion a 0 l = 0 := by
  induction l with
  | nil => simp [sumaTerminos]
  | cons x xs ih => simp [sumaTerminos, termino] at ih ⊢; exact ih

theorem Mpi.foldl_ranks (funcion : ℚ → ℚ) (a b : ℚ) (n size : ℤ)
    (hn : 0 < n) (hw : 1 ≤ size) :
    ∀ k : ℕ, (k : ℤ) ≤ size →
      (List.range k).foldl
          (fun acc (r : ℕ) => acc + Mpi.suma_local funcion ⟨a, b, n⟩ size (r : ℤ)) 0 =
        sumaTerminos funcion a ((b - a) / (n : ℚ))
          (indices 0 (if (k : ℤ) = size then n else (k : ℤ) * (n / size))) := by
  have hb0 : 0 ≤ n / size := Int.ediv_nonneg (le_of_lt hn) (by omega)
  have hsz : size * (n / size) ≤ n := Mpi.size_mul_base_le hn hw
  intro k
  induction k with
  | zero =>
    intro _hk
    rw [if_neg (show ¬((0 : ℕ) : ℤ) = size by push_cast; omega)]
    rw [show (((0 : ℕ) : ℤ)) * (n / size) = 0 by push_cast; ring]
    rw [indices_eq_nil le_rfl]
    simp [sumaTerminos]
  | succ k ih =>
    intro hk
    have hkz : (k : ℤ) < size := by push_cast at hk; omega
    have hkne : ¬((k : ℤ) = size) := by omega
    rw [List.range_succ, List.foldl_append, ih (by omega), if_neg hkne]
    simp only [List.foldl_cons, List.foldl_nil]
    rw [show Mpi.suma_local funcion ⟨a, b, n⟩ size (k : ℤ) =
          Mpi.calcular_suma_riemann funcion ⟨a, b, n⟩
            (Mpi.inicio n size (k : ℤ)) (Mpi.fin n size (k : ℤ)) from rfl]
    rw [Mpi.calcular_suma_riemann_eq]
    by_cases hlast : (k : ℤ) = size - 1
    · have hfin : Mpi.fin n size (k : ℤ) = n := by
        unfold Mpi.fin
        rw [if_pos hlast]
      have hini : Mpi.inicio n size (k : ℤ) = (k : ℤ) * (n / size) := rfl
      rw [hfin, hini]
      rw [if_pos (show ((k + 1 : ℕ) : ℤ) = size by push_cast; omega)]
      rw [← sumaTerminos_append, indices_append (mul_nonneg (by positivity) hb0)]
      have h1 : (k : ℤ) * (n / size) ≤ size * (n / size) :=
        mul_le_mul_of_nonneg_right (by omega) hb0
      linarith
    · have hfin : Mpi.fin n size (k : ℤ) = (k : ℤ) * (n / size) + n / size := by
        unfold Mpi.fin Mpi.inicio Mpi.subintervalos_por_proceso
        rw [if_neg hlast]
      have hini : Mpi.inicio n size (k : ℤ) = (k : ℤ) * (n / size) := rfl
      rw [hfin, hini]
      rw [if_neg (show ¬((k + 1 : ℕ) : ℤ) = size by push_cast; omega)]
      rw [← sumaTerminos_append,
        indices_append (mul_nonneg (by positivity) hb0) (by linarith)]
      rw [show ((k + 1 : ℕ) : ℤ) * (n / size) = (k : ℤ) * (n / size) + n / size by
        push_cast; ring]

theorem Mpi.suma_total_eq (funcion : ℚ → ℚ) (a b : ℚ) (n size : ℤ)
    (hn : 0 < n) (hw : 1 ≤ size) :
    Mpi.suma_total funcion ⟨a, b, n⟩ size =
      Secuencial.calcular_suma_riemann funcion a b n := by
  have hcast : ((size.toNat : ℤ)) = size := Int.toNat_of_nonneg (by omega)
  have h := Mpi.foldl_ranks funcion a b n size hn hw size.toNat (by omega)
  rw [if_pos hcast] at h
  unfold Mpi.suma_total
  rw [h, Secuencial.suma_completa_eq]

/-! ### Claims -/

/-- Claim C1: for every IntegrationParams with n > 0 and every worker count
w ≥ 1, reducing (by addition, in rank order) the w per-worker partial sums
produced by RangeSum over the Partitioner's ranges equals the sequential
RangeSum over the full range [0, n).  Arithmetic is modelled exactly (ℚ), so
the equality is exact, which covers the claim's "exact/associative" reading
and in particular the w = 1 case. -/
theorem parallel_total_eq_sequential_total (funcion : ℚ → ℚ) (a b : ℚ)
    (n size : ℤ) (hn : 0 < n) (hw : 1 ≤ size) :
    Mpi.suma_total funcion ⟨a, b, n⟩ size =
      Secuencial.calcular_suma_riemann funcion a b n :=
  Mpi.suma_total_eq funcion a b n size hn hw

theorem parallel_total_eq_sequential_total_witness :
    (0 : ℤ) < 7 ∧ (1 : ℤ) ≤ 3 ∧
      Mpi.suma_total (fun x => x) ⟨0, 1, 7⟩ 3 =
        Secuencial.calcular_suma_riemann (fun x => x) 0 1 7 :=
  ⟨by decide, by decide,
    parallel_total_eq_sequential_total (fun x => x) 0 1 7 3 (by decide) (by decide)⟩

/-- Claim C2: for all n > 0 and w ≥ 1, the ranges produced by the partitioner
form a partition of [0, n): each range lies inside [0, n) and every index of
[0, n) lies in exactly one range (no overlap, no gap). -/
theorem partitioner_is_partition (n size : ℤ) (hn : 0 < n) (hw : 1 ≤ size) :
    esParticion n size :=
  Mpi.esParticion_of hn hw

theorem partitioner_is_partition_witness :
    (0 : ℤ) < 5 ∧ (1 : ℤ) ≤ 2 ∧ esParticion 5 2 :=
  ⟨by decide, by decide, partitioner_is_partition 5 2 (by decide) (by decide)⟩

/-- Claim C3: for all n > 0 and w ≥ 1, each worker of rank < w-1 receives
exactly base = n / w indices starting at rank * base, and the last worker
(rank w-1) receives [ (w-1)*base, n ), absorbing base + (n mod w) indices. -/
theorem partitioner_block_sizes (n size : ℤ) (_hn : 0 < n) (_hw : 1 ≤ size) :
    (∀ r : ℤ, 0 ≤ r → r < size - 1 →
        Mpi.inicio n size r = r * (n / size) ∧
        Mpi.fin n size r = r * (n / size) + n / size) ∧
      Mpi.inicio n size (size - 1) = (size - 1) * (n / size) ∧
      Mpi.fin n size (size - 1) = n ∧
      n - Mpi.inicio n size (size - 1) = n / size + n % size := by
  refine ⟨?_, rfl, ?_, ?_⟩
  · intro r _h0 hr
    refine ⟨rfl, ?_⟩
    unfold Mpi.fin Mpi.inicio Mpi.subintervalos_por_proceso
    rw [if_neg (show ¬ r = size - 1 by omega)]
  · unfold Mpi.fin
    rw [if_pos rfl]
  · unfold Mpi.inicio Mpi.subintervalos_por_proceso
    have h := Int.ediv_add_emod n size
    linarith

theorem partitioner_block_sizes_witness :
    (0 : ℤ) < 10 ∧ (1 : ℤ) ≤ 3 ∧
      ((∀ r : ℤ, 0 ≤ r → r < 3 - 1 →
          Mpi.inicio 10 3 r = r * (10 / 3) ∧
          Mpi.fin 10 3 r = r * (10 / 3) + 10 / 3) ∧
        Mpi.inicio 10 3 (3 - 1) = (3 - 1) * (10 / 3) ∧
        Mpi.fin 10 3 (3 - 1) = 10 ∧
        10 - Mpi.inicio 10 3 (3 - 1) = 10 / 3 + 10 % 3) :=
  ⟨by decide, by decide, partitioner_block_sizes 10 3 (by decide) (by decide)⟩

/-- Claim C4 counterexample: the claim says that for w > n the ranges of
HIGH-rank workers degenerate to empty.  At n = 1, w = 2 the highest rank
(rank 1 = w-1) receives the non-empty range [0, 1), while the low rank 0 is
the one whose range degenerates: emptiness is not a property of the high
ranks. -/
theorem highest_rank_not_empty_when_w_gt_n :
    Mpi.inicio 1 2 0 = 0 ∧ Mpi.fin 1 2 0 = 0 ∧
      Mpi.inicio 1 2 1 = 0 ∧ Mpi.fin 1 2 1 = 1 ∧
      Mpi.inicio 1 2 1 ≠ Mpi.fin 1 2 1 := by
  refine ⟨rfl, ?_, rfl, ?_, ?_⟩ <;> decide

/-- Claim C4 as amended: for all n > 0 and w > n, every worker except the
last (every rank < w-1) receives an empty range with start == end, and the
last worker (rank w-1) receives the entire range [0, n). -/
theorem nonlast_ranks_empty_when_w_gt_n (n size : ℤ) (hn : 0 < n)
    (hnw : n < size) :
    (∀ r : ℤ, 0 ≤ r → r < size - 1 → Mpi.inicio n size r = Mpi.fin n size r) ∧
      Mpi.inicio n size (size - 1) = 0 ∧ Mpi.fin n size (size - 1) = n := by
  have hb : n / size = 0 := Int.ediv_eq_zero_of_lt (le_of_lt hn) hnw
  refine ⟨?_, ?_, ?_⟩
  · intro r _h0 hr
    unfold Mpi.fin Mpi.inicio Mpi.subintervalos_por_proceso
    rw [if_neg (show ¬ r = size - 1 by omega), hb]
    ring
  · unfold Mpi.inicio Mpi.subintervalos_por_proceso
    rw [hb, mul_zero]
  · unfold Mpi.fin
    rw [if_pos rfl]

theorem nonlast_ranks_empty_when_w_gt_n_witness :
    (0 : ℤ) < 2 ∧ (2 : ℤ) < 5 ∧
      ((∀ r : ℤ, 0 ≤ r → r < 5 - 1 → Mpi.inicio 2 5 r = Mpi.fin 2 5 r) ∧
        Mpi.inicio 2 5 (5 - 1) = 0 ∧ Mpi.fin 2 5 (5 - 1) = 2) :=
  ⟨by decide, by decide, nonlast_ranks_empty_when_w_gt_n 2 5 (by decide) (by decide)⟩

/-- Claim C5: for every a, b and n > 0, RangeSum on an empty range
(start == end with 0 ≤ start ≤ n) returns exactly 0 (the C function is total:
the loop body never executes and the initial accumulator is returned). -/
theorem rangesum_empty_range_zero (funcion : ℚ → ℚ) (a b : ℚ) (n s : ℤ)
    (_hn : 0 < n) (_h0 : 0 ≤ s) (_hs : s ≤ n) :
    Mpi.calcular_suma_riemann funcion ⟨a, b, n⟩ s s = 0 := by
  rw [Mpi.calcular_suma_riemann_eq, indices_eq_nil le_rfl]
  simp [sumaTerminos]

theorem rangesum_empty_range_zero_witness :
    (0 : ℤ) < 4 ∧ (0 : ℤ) ≤ 2 ∧ (2 : ℤ) ≤ 4 ∧
      Mpi.calcular_suma_riemann (fun x => x) ⟨3, 7, 4⟩ 2 2 = 0 :=
  ⟨by decide, by decide, by decide,
    rangesum_empty_range_zero (fun x => x) 3 7 4 2 (by decide) (by decide) (by decide)⟩

/-- Claim C6: for every a, b, n > 0 and 0 ≤ start ≤ end ≤ n, RangeSum equals
a single left fold, initialized to 0, adding the terms
funcion(a + (i + 0.5) * delta_x) * delta_x with delta_x = (b - a) / n over the
index list start, start+1, ..., end-1, which is strictly ascending; the
function is pure, so there are no side effects. -/
theorem rangesum_single_accumulator_ascending (funcion : ℚ → ℚ)
    (params : IntegracionParams) (inicio fin : ℤ) (_hn : 0 < params.n)
    (_h0 : 0 ≤ inicio) (_hsf : inicio ≤ fin) (_hf : fin ≤ params.n) :
    Mpi.calcular_suma_riemann funcion params inicio fin =
      (indices inicio fin).foldl
        (fun suma (i : ℤ) =>
          suma + funcion (params.a + ((i : ℚ) + 0.5) *
              ((params.b - params.a) / (params.n : ℚ))) *
            ((params.b - params.a) / (params.n : ℚ))) 0 ∧
      (indices inicio fin).Pairwise (· < ·) := by
  constructor
  · rw [Mpi.calcular_suma_riemann_eq, foldl_add_eq_sum, zero_add]
    unfold sumaTerminos termino
    rfl
  · unfold indices
    apply List.Pairwise.map
    · intro x y hxy
      have hc : (x : ℤ) < (y : ℤ) := by exact_mod_cast hxy
      omega
    · exact List.pairwise_lt_range _

theorem rangesum_single_accumulator_ascending_witness :
    (0 : ℤ) < 4 ∧ (0 : ℤ) ≤ 1 ∧ (1 : ℤ) ≤ 3 ∧ (3 : ℤ) ≤ 4 ∧
      (Mpi.calcular_suma_riemann (fun x => x) ⟨0, 2, 4⟩ 1 3 =
        (indices 1 3).foldl
          (fun suma (i : ℤ) =>
            suma + (fun x : ℚ => x) ((0 : ℚ) + ((i : ℚ) + 0.5) *
                (((2 : ℚ) - 0) / ((4 : ℤ) : ℚ))) *
              (((2 : ℚ) - 0) / ((4 : ℤ) : ℚ))) 0 ∧
        (indices 1 3).Pairwise (· < ·)) :=
  ⟨by decide, by decide, by decide, by decide,
    rangesum_single_accumulator_ascending (fun x => x) ⟨0, 2, 4⟩ 1 3
      (by decide) (by decide) (by decide) (by decide)⟩

/-- Claim C7: for every n > 0 and a == b, the sequential full-range total and
the reduced parallel total (for every worker count w ≥ 1) are exactly 0:
delta_x = (a - a) / n = 0, so every accumulated term is funcion(x) * 0 = 0. -/
theorem zero_width_domain_zero (funcion : ℚ → ℚ) (a : ℚ) (n : ℤ)
    (hn : 0 < n) :
    Secuencial.calcular_suma_riemann funcion a a n = 0 ∧
      ∀ size : ℤ, 1 ≤ size → Mpi.suma_total funcion ⟨a, a, n⟩ size = 0 := by
  have hseq : Secuencial.calcular_suma_riemann funcion a a n = 0 := by
    rw [Secuencial.suma_completa_eq, sub_self, zero_div]
    exact sumaTerminos_delta_zero funcion a (indices 0 n)
  refine ⟨hseq, fun size hw => ?_⟩
  rw [Mpi.suma_total_eq funcion a a n size hn hw]
  exact hseq

theorem zero_width_domain_zero_witness :
    (0 : ℤ) < 6 ∧
      (Secuencial.calcular_suma_riemann (fun x => x + 1) 5 5 6 = 0 ∧
        ∀ size : ℤ, 1 ≤ size →
          Mpi.suma_total (fun x => x + 1) ⟨5, 5, 6⟩ size = 0) :=
  ⟨by decide, zero_width_domain_zero (fun x => x + 1) 5 6 (by decide)⟩

/-- Claim C8: a malformed argument count, a non-positive n, or (OpenMP) a
non-positive thread count makes the driver report an error and exit with a
nonzero status before any computation: the modelled main returns `.error`
(usage or validation message, nothing computed, no "Resultado" line). -/
theorem invalid_input_rejected (funcion : ℚ → ℚ) (a b : ℚ) :
    (∀ argc n : ℤ, argc ≠ 4 ∨ n ≤ 0 →
        ∃ e : MainError, Secuencial.main funcion argc a b n = .error e) ∧
      (∀ argc n num_hilos : ℤ, argc ≠ 5 ∨ n ≤ 0 ∨ num_hilos ≤ 0 →
        ∃ e : MainError,
          Openmp.main funcion argc a b n num_hilos = .error e) := by
  constructor
  · rintro argc n h
    by_cases hargc : argc = 4
    · have hn : n ≤ 0 := by tauto
      exact ⟨.invalidInput, by simp [Secuencial.main, hargc, hn]⟩
    · exact ⟨.argumentCount, by simp [Secuencial.main, hargc]⟩
  · rintro argc n num_hilos h
    by_cases hargc : argc = 5
    · have hn : n ≤ 0 ∨ num_hilos ≤ 0 := by tauto
      exact ⟨.invalidInput, by simp [Openmp.main, hargc, hn]⟩
    · exact ⟨.argumentCount, by simp [Openmp.main, hargc]⟩

theorem invalid_input_rejected_witness :
    ((4 : ℤ) ≠ 4 ∨ (0 : ℤ) ≤ 0) ∧
      ∃ e : MainError, Secuencial.main (fun x => x) 4 0 1 0 = .error e :=
  ⟨Or.inr (by decide),
    (invalid_input_rejected (fun x => x) 0 1).1 4 0 (Or.inr (by decide))⟩

/-- Claim C9: under exact arithmetic RangeSum is additive over adjacent
ranges: the sum over [start, mid) plus the sum over [mid, end) equals the
sum over [start, end). -/
theorem rangesum_additive_adjacent (funcion : ℚ → ℚ)
    (params : IntegracionParams) (lo mid hi : ℤ) (_hn : 0 < params.n)
    (_h0 : 0 ≤ lo) (hlm : lo ≤ mid) (hmh : mid ≤ hi) (_hh : hi ≤ params.n) :
    Mpi.calcular_suma_riemann funcion params lo mid +
      Mpi.calcular_suma_riemann funcion params mid hi =
      Mpi.calcular_suma_riemann funcion params lo hi := by
  rw [Mpi.calcular_suma_riemann_eq, Mpi.calcular_suma_riemann_eq,
    Mpi.calcular_suma_riemann_eq, ← indices_append hlm hmh, sumaTerminos_append]

theorem rangesum_additive_adjacent_witness :
    (0 : ℤ) < 5 ∧ (0 : ℤ) ≤ 1 ∧ (1 : ℤ) ≤ 3 ∧ (3 : ℤ) ≤ 5 ∧ (5 : ℤ) ≤ 5 ∧
      Mpi.calcular_suma_riemann (fun x => x) ⟨0, 1, 5⟩ 1 3 +
          Mpi.calcular_suma_riemann (fun x => x) ⟨0, 1, 5⟩ 3 5 =
        Mpi.calcular_suma_riemann (fun x => x) ⟨0, 1, 5⟩ 1 5 :=
  ⟨by decide, by decide, by decide, by decide, by decide,
    rangesum_additive_adjacent (fun x => x) ⟨0, 1, 5⟩ 1 3 5
      (by decide) (by decide) (by decide) (by decide) (by decide)⟩

/-- Claim C10: the sequential variant's full-interval sum and the MPI
variant's RangeSum over the full range [0, n) are the same computation: the
two loops agree at every intermediate index and accumulator state (they
perform the identical operation sequence), and in particular the results are
equal. -/
theorem sequential_eq_mpi_full_range (funcion : ℚ → ℚ) (a b : ℚ) (n : ℤ)
    (_hn : 0 < n) :
    (∀ (i : ℤ) (suma : ℚ),
        Secuencial.suma_loop funcion a ((b - a) / (n : ℚ)) n i suma =
          Mpi.suma_loop funcion a ((b - a) / (n : ℚ)) n i suma) ∧
      Secuencial.calcular_suma_riemann funcion a b n =
        Mpi.calcular_suma_riemann funcion ⟨a, b, n⟩ 0 n := by
  refine ⟨Secuencial.suma_loop_eq_mpi funcion a ((b - a) / (n : ℚ)) n, ?_⟩
  unfold Secuencial.calcular_suma_riemann Mpi.calcular_suma_riemann
  exact Secuencial.suma_loop_eq_mpi funcion a ((b - a) / (n : ℚ)) n 0 0

theorem sequential_eq_mpi_full_range_witness :
    (0 : ℤ) < 3 ∧
      ((∀ (i : ℤ) (suma : ℚ),
          Secuencial.suma_loop (fun x => x) 1 (((2 : ℚ) - 1) / ((3 : ℤ) : ℚ)) 3 i suma =
            Mpi.suma_loop (fun x => x) 1 (((2 : ℚ) - 1) / ((3 : ℤ) : ℚ)) 3 i suma) ∧
        Secuencial.calcular_suma_riemann (fun x => x) 1 2 3 =
          Mpi.calcular_suma_riemann (fun x => x) ⟨1, 2, 3⟩ 0 3) :=
  ⟨by decide, sequential_eq_mpi_full_range (fun x => x) 1 2 3 (by decide)⟩
